import Mathlib

/-!
Verification development for `fill_playlist.py`, a one-shot playlist
synchronizer.  The Python source is shallowly embedded:

* `read_track_ids` (source lines 66-91) is modelled line-by-line on
  `List Char` lines; Python's `str.strip` becomes `pyStrip`, `str.split(":")`
  becomes `splitOnColon`, `parts[-1]` becomes `List.getLastD`.
* `get_existing_track_ids` (source lines 94-120) is modelled against a remote
  server presented as the list of page responses returned for the successive
  offsets 0, 100, 200, ...; offsets past the supplied list answer with an
  empty page (the behaviour an exhausted playlist exhibits, and exactly the
  behaviour of the test double in `test_fill_playlist.py`).  A page response
  is a record with an optional `items` field (absent models a JSON response
  with no "items" key, which `response.get("items", [])` turns into `[]`)
  and an optional `total` field that the code never reads.  Besides the set
  the Python function returns, the embedding also returns the list of
  offsets requested, so that claims about the number and shape of the page
  requests can be stated.
* `add_tracks_to_playlist` (source lines 123-144) is modelled as the trace
  of its observable events: the page requests of its single snapshot fetch,
  a no-op report (the `print` on line 135) or the batch append calls.
  A second embedding, `add_tracks_run`, additionally takes an oracle saying
  which append calls succeed, to model the remote call raising: the Python
  loop performs the failing call and the exception aborts the rest.
-/

namespace FillPlaylist

/-! ## Identifier normalizer: `read_track_ids` -/

/-- Python `str.strip()` on a line of characters: remove leading and trailing
whitespace. -/
def pyStrip (s : List Char) : List Char :=
  ((s.dropWhile Char.isWhitespace).reverse.dropWhile Char.isWhitespace).reverse

/-- Python `str.split(":")`: split a character list at every colon; always
returns at least one (possibly empty) segment. -/
def splitOnColon : List Char → List (List Char)
  | [] => [[]]
  | c :: cs =>
    if c = ':' then [] :: splitOnColon cs
    else
      match splitOnColon cs with
      | [] => [[c]]
      | p :: ps => (c :: p) :: ps

/-- Body of the `for line in f` loop of `read_track_ids` (source lines
79-90): strip the line, skip it when empty or starting with `#`, otherwise
take the last colon-separated segment (the whole line when there is no
colon) and keep it when non-empty. -/
def normalize_line (raw : List Char) : Option (List Char) :=
  let line := pyStrip raw
  if line.isEmpty then none
  else if line.head? = some '#' then none
  else
    let track_id := if ':' ∈ line then (splitOnColon line).getLastD [] else line
    if track_id.isEmpty then none else some track_id

/-- `read_track_ids` (source lines 66-91) over the list of lines of the
input file: the ordered list of normalized identifiers. -/
def read_track_ids (lines : List (List Char)) : List (List Char) :=
  lines.filterMap normalize_line

/-- Wording of the specification: the first non-whitespace character of a
line, if any. -/
def first_nonws (raw : List Char) : Option Char :=
  (raw.dropWhile Char.isWhitespace).head?

/-- Wording of the specification: the segment after the last colon of a
line (the whole line when it has no colon). -/
def after_last_colon (s : List Char) : List Char :=
  (s.reverse.takeWhile (fun c => decide (c ≠ ':'))).reverse

/-- Per-line normalization as the specification words it: trim; skip lines
empty after trimming or whose first non-whitespace character is `#`; take
the segment after the last colon when the line contains a colon, else the
trimmed line verbatim; discard the line when the resulting identifier is
empty. -/
def spec_normalize_line (raw : List Char) : Option (List Char) :=
  let line := pyStrip raw
  if line = [] then none
  else if first_nonws raw = some '#' then none
  else
    let ident := if ':' ∈ line then after_last_colon line else line
    if ident = [] then none else some ident

/-- The normalizer contract as the specification words it. -/
def spec_read_track_ids (lines : List (List Char)) : List (List Char) :=
  lines.filterMap spec_normalize_line

/-! ## Remote snapshot fetcher: `get_existing_track_ids` -/

/-- The `track` object of a playlist item: its `id` field is `none` for a
JSON `null` identifier. -/
structure Track where
  id : Option String
deriving DecidableEq

/-- One entry of a page's `items` array: `track = none` models an absent or
null track reference. -/
structure Item where
  track : Option Track
deriving DecidableEq

/-- One page response of `sp.playlist_items`: `items = none` models a
response carrying no `items` field at all, and `total` is the advisory
total-count field, which the code never reads. -/
structure Page where
  items : Option (List Item)
  total : Option Nat
deriving DecidableEq

instance : Inhabited Page := ⟨⟨none, none⟩⟩

/-- Python `response.get("items", [])` (source line 112). -/
def pageItems (p : Page) : List Item :=
  p.items.getD []

/-- Body of the `for item in items` loop (source lines 113-116): Python
`if track and track.get("id"): existing.add(track["id"])`.  Truthiness of
`track.get("id")` excludes both a null and an empty-string identifier. -/
def addItem (s : Finset String) (it : Item) : Finset String :=
  match it.track with
  | none => s
  | some t =>
    match t.id with
    | none => s
    | some i => if i = "" then s else insert i s

/-- Accumulate one page's items into the set (the inner loop of
`get_existing_track_ids`). -/
def addItemIds (s : Finset String) (items : List Item) : Finset String :=
  items.foldl addItem s

/-- The identifier the code would add for one item, if any: `some i` exactly
when the track reference is present and its identifier is a truthy (non-null,
non-empty) string. -/
def itemId (it : Item) : Option String :=
  match it.track with
  | none => none
  | some t =>
    match t.id with
    | none => none
    | some i => if i = "" then none else some i

/-- Accumulate one whole page into the set. -/
def pageAccum (s : Finset String) (p : Page) : Finset String :=
  addItemIds s (pageItems p)

/-- The `while True` pagination loop (source lines 110-119): request the
page at the current offset, accumulate its identifiers, advance the offset
by the full limit 100, and stop as soon as a page holds fewer than 100
items.  Offsets past the supplied page list answer with an empty page.
Returns the accumulated set together with the list of requested offsets. -/
def fetchLoop : List Page → Nat → Finset String → Finset String × List Nat
  | [], offset, acc => (acc, [offset])
  | p :: rest, offset, acc =>
    if (pageItems p).length < 100 then (addItemIds acc (pageItems p), [offset])
    else
      ((fetchLoop rest (offset + 100) (addItemIds acc (pageItems p))).1,
        offset :: (fetchLoop rest (offset + 100) (addItemIds acc (pageItems p))).2)

/-- `get_existing_track_ids` (source lines 94-120): the set of identifiers
in the playlist, paired with the offsets of the page requests issued. -/
def get_existing_track_ids (pages : List Page) : Finset String × List Nat :=
  fetchLoop pages 0 ∅

/-- Wording of the specification for the fetched set: the union across all
pages of the identifiers of the entries, excluding entries whose track
reference is absent or whose identifier is null. -/
def pagesUnion (pages : List Page) : Finset String :=
  pages.foldl
    (fun s p => s ∪ ((pageItems p).filterMap (fun it => it.track.bind Track.id)).toFinset) ∅

/-! ## Batched appender: `add_tracks_to_playlist` -/

/-- The residue computation of source line 133:
`[tid for tid in track_ids if tid not in existing]`. -/
def to_add (existing : Finset String) (track_ids : List String) : List String :=
  track_ids.filter (fun tid => decide (tid ∉ existing))

/-- The batch slicing of source lines 139-141:
`to_add[start : start + 100]` for `start in range(0, len(to_add), 100)`. -/
def mkBatches (l : List String) : List (List String) :=
  (List.range ((l.length + 99) / 100)).map (fun k => (l.drop (k * 100)).take 100)

/-- Observable events of one run of `add_tracks_to_playlist`: a page
request of the snapshot fetch, the no-op report of source line 135, or one
remote append call (source line 142) with its payload. -/
inductive Event where
  | pageRequest (offset : Nat)
  | noopReport
  | appendCall (batch : List String)
deriving DecidableEq

/-- Whether an event is a page request of the snapshot fetch. -/
def isPageRequest : Event → Bool
  | Event.pageRequest _ => true
  | _ => false

/-- The payloads of the append calls of a trace, in order. -/
def appendedBatches (tr : List Event) : List (List String) :=
  tr.filterMap (fun e =>
    match e with
    | Event.appendCall b => some b
    | _ => none)

/-- `add_tracks_to_playlist` (source lines 123-144) as its trace of
observable events: fetch the snapshot once, filter the input against it,
then either report a no-op (empty residue) or append the residue in batches
of at most 100. -/
def add_tracks_to_playlist (pages : List Page) (track_ids : List String) : List Event :=
  if to_add (get_existing_track_ids pages).1 track_ids = [] then
    (get_existing_track_ids pages).2.map Event.pageRequest ++ [Event.noopReport]
  else
    (get_existing_track_ids pages).2.map Event.pageRequest ++
      (mkBatches (to_add (get_existing_track_ids pages).1 track_ids)).map Event.appendCall

/-- The batch loop of source lines 140-143 when append calls may raise:
`ok k` says whether the k-th append call succeeds.  A failing call is still
issued, but the exception aborts the loop; the Boolean result is `false`
when an exception propagated to the caller. -/
def runBatches (ok : Nat → Bool) : List (List String) → Nat → List (List String) × Bool
  | [], _ => ([], true)
  | b :: bs, k =>
    if ok k then
      let r := runBatches ok bs (k + 1)
      (b :: r.1, r.2)
    else ([b], false)

/-- `add_tracks_to_playlist` under an append-failure oracle: the append
calls actually issued, and whether the run completed without an exception. -/
def add_tracks_run (ok : Nat → Bool) (pages : List Page) (track_ids : List String) :
    List (List String) × Bool :=
  if to_add (get_existing_track_ids pages).1 track_ids = [] then ([], true)
  else runBatches ok (mkBatches (to_add (get_existing_track_ids pages).1 track_ids)) 0

/-- A playlist item carrying a plain identifier, for concrete test pages. -/
def trackItem (s : String) : Item := ⟨some ⟨some s⟩⟩

/-- A concrete full page of 100 entries: identifier entries for "a" plus one
entry with an absent track reference and one with a null identifier. -/
def pageA : Page :=
  ⟨some (trackItem "a" :: Item.mk none :: Item.mk (some ⟨none⟩) ::
    List.replicate 97 (trackItem "a")), none⟩

/-! ## Lemmas about the normalizer -/

theorem dropWhile_head_false {α : Type} (p : α → Bool) (l : List α) {c : α} {cs : List α}
    (h : l.dropWhile p = c :: cs) : p c = false := by
  have hh := List.head?_dropWhile_not p l
  rw [h] at hh
  simpa using hh

theorem dropWhile_append_last {α : Type} (p : α → Bool) {c : α} (hc : p c = false)
    (l : List α) : List.dropWhile p (l ++ [c]) = List.dropWhile p l ++ [c] := by
  induction l with
  | nil => simp [List.dropWhile_cons, hc]
  | cons x xs ih =>
    cases hx : p x with
    | true => simp [List.dropWhile_cons, hx, ih]
    | false => simp [List.dropWhile_cons, hx]

theorem head?_pyStrip (raw : List Char) : (pyStrip raw).head? = first_nonws raw := by
  unfold pyStrip first_nonws
  cases hd : raw.dropWhile Char.isWhitespace with
  | nil => simp
  | cons c cs =>
    have hc : Char.isWhitespace c = false := dropWhile_head_false _ _ hd
    rw [List.reverse_cons, dropWhile_append_last _ hc, List.reverse_append]
    simp

theorem takeWhile_append_all {α : Type} (p : α → Bool) (X Y : List α)
    (h : ∀ x ∈ X, p x = true) :
    List.takeWhile p (X ++ Y) = X ++ List.takeWhile p Y := by
  induction X with
  | nil => simp
  | cons x xs ih =>
    have hx := h x (List.mem_cons_self x xs)
    simp [List.takeWhile_cons, hx, ih (fun a ha => h a (List.mem_cons_of_mem _ ha))]

theorem takeWhile_eq_self_of_all {α : Type} (p : α → Bool) (l : List α)
    (h : ∀ x ∈ l, p x = true) : List.takeWhile p l = l := by
  have hh := takeWhile_append_all p l [] h
  simpa using hh

theorem takeWhile_append_stop {α : Type} (p : α → Bool) (X Y : List α)
    (h : ∃ x ∈ X, p x = false) :
    List.takeWhile p (X ++ Y) = List.takeWhile p X := by
  induction X with
  | nil =>
    obtain ⟨x, hx, _⟩ := h
    exact absurd hx (List.not_mem_nil x)
  | cons x xs ih =>
    cases hx : p x with
    | false => simp [List.takeWhile_cons, hx]
    | true =>
      have hxs : ∃ a ∈ xs, p a = false := by
        obtain ⟨a, ha, hpa⟩ := h
        rcases List.mem_cons.mp ha with rfl | ha'
        · rw [hx] at hpa; cases hpa
        · exact ⟨a, ha', hpa⟩
      simp [List.takeWhile_cons, hx, ih hxs]

theorem splitOnColon_ne_nil (s : List Char) : splitOnColon s ≠ [] := by
  induction s with
  | nil => simp [splitOnColon]
  | cons c cs ih =>
    by_cases hc : c = ':'
    · simp [splitOnColon, hc]
    · simp only [splitOnColon, if_neg hc]
      cases h : splitOnColon cs with
      | nil => simp
      | cons p ps => simp

theorem splitOnColon_no_colon (s : List Char) (h : ':' ∉ s) : splitOnColon s = [s] := by
  induction s with
  | nil => rfl
  | cons c cs ih =>
    have hc : ¬c = ':' := fun e => h (by simp [e])
    have hcs : ':' ∉ cs := fun m => h (List.mem_cons_of_mem _ m)
    simp only [splitOnColon, if_neg hc, ih hcs]

theorem splitOnColon_two_le (s : List Char) (h : ':' ∈ s) :
    2 ≤ (splitOnColon s).length := by
  induction s with
  | nil => simp at h
  | cons c cs ih =>
    by_cases hc : c = ':'
    · have hne := splitOnColon_ne_nil cs
      have hpos : 0 < (splitOnColon cs).length := List.length_pos.mpr hne
      simp only [splitOnColon, if_pos hc, List.length_cons]
      omega
    · have hcs : ':' ∈ cs := by
        rcases List.mem_cons.mp h with e | m
        · exact absurd e.symm hc
        · exact m
      have hlen := ih hcs
      simp only [splitOnColon, if_neg hc]
      cases hsp : splitOnColon cs with
      | nil => exact absurd hsp (splitOnColon_ne_nil cs)
      | cons p ps =>
        rw [hsp] at hlen
        simpa using hlen

theorem getLastD_cons_of_ne {α : Type} (x : α) (t : List α) (d : α) (h : t ≠ []) :
    (x :: t).getLastD d = t.getLastD d := by
  cases t with
  | nil => exact absurd rfl h
  | cons y t' => simp [List.getLastD_cons]

theorem after_last_colon_of_not_mem (s : List Char) (h : ':' ∉ s) :
    after_last_colon s = s := by
  unfold after_last_colon
  have hall : ∀ x ∈ s.reverse, (fun c => decide (c ≠ ':')) x = true := by
    intro x hx
    simp only [decide_eq_true_eq]
    intro e
    subst e
    exact h (List.mem_reverse.mp hx)
  rw [takeWhile_eq_self_of_all _ _ hall, List.reverse_reverse]

theorem after_last_colon_cons_mem (c : Char) (cs : List Char) (h : ':' ∈ cs) :
    after_last_colon (c :: cs) = after_last_colon cs := by
  unfold after_last_colon
  rw [List.reverse_cons, takeWhile_append_stop _ _ _ ⟨':', List.mem_reverse.mpr h, by simp⟩]

theorem after_last_colon_colon_cons (cs : List Char) :
    after_last_colon (':' :: cs) = after_last_colon cs := by
  by_cases hm : ':' ∈ cs
  · exact after_last_colon_cons_mem ':' cs hm
  · rw [after_last_colon_of_not_mem cs hm]
    unfold after_last_colon
    have hall : ∀ x ∈ cs.reverse, (fun c => decide (c ≠ ':')) x = true := by
      intro x hx
      simp only [decide_eq_true_eq]
      intro e
      subst e
      exact hm (List.mem_reverse.mp hx)
    rw [List.reverse_cons, takeWhile_append_all _ _ _ hall]
    simp

theorem split_last (s : List Char) : (splitOnColon s).getLastD [] = after_last_colon s := by
  induction s with
  | nil => rfl
  | cons c cs ih =>
    by_cases hc : c = ':'
    · subst hc
      rw [show splitOnColon (':' :: cs) = [] :: splitOnColon cs from by simp [splitOnColon]]
      rw [getLastD_cons_of_ne _ _ _ (splitOnColon_ne_nil cs), ih,
        after_last_colon_colon_cons]
    · have hne := splitOnColon_ne_nil cs
      cases hsp : splitOnColon cs with
      | nil => exact absurd hsp hne
      | cons p ps =>
        rw [show splitOnColon (c :: cs) = (c :: p) :: ps from by
          simp only [splitOnColon, if_neg hc, hsp]]
        by_cases hm : ':' ∈ cs
        · have hps : ps ≠ [] := by
            have h2 := splitOnColon_two_le cs hm
            rw [hsp] at h2
            cases ps with
            | nil => simp at h2
            | cons q qs => simp
          rw [getLastD_cons_of_ne _ _ _ hps, ← getLastD_cons_of_ne p ps ([]) hps, ← hsp,
            ih, after_last_colon_cons_mem c cs hm]
        · have hone := splitOnColon_no_colon cs hm
          rw [hsp] at hone
          injection hone with hp hps
          rw [hp, hps, after_last_colon_of_not_mem (c :: cs) (by
            intro m
            rcases List.mem_cons.mp m with e | m'
            · exact hc e.symm
            · exact hm m')]
          rfl

theorem split_last' (s : List Char) :
    (splitOnColon s).getLast?.getD [] = after_last_colon s := by
  rw [← List.getLastD_eq_getLast?]
  exact split_last s

theorem normalize_line_eq_spec (raw : List Char) :
    normalize_line raw = spec_normalize_line raw := by
  unfold normalize_line spec_normalize_line
  rw [← head?_pyStrip raw]
  by_cases h1 : pyStrip raw = []
  · simp [h1]
  · by_cases h2 : (pyStrip raw).head? = some '#'
    · simp [h1, h2, List.isEmpty_iff]
    · by_cases h3 : ':' ∈ pyStrip raw
      · simp [h1, h2, h3, List.isEmpty_iff, split_last, split_last']
      · simp [h1, h2, h3, List.isEmpty_iff]

/-- C4: `read_track_ids` returns exactly the ordered sequence obtained by
trimming each line, skipping lines empty after trimming or whose first
non-whitespace character is `#`, taking the segment after the last colon
when the line contains a colon and the trimmed line verbatim otherwise,
and discarding lines whose resulting identifier is empty.  A concrete run
over a mixed input exercises all branches. -/
theorem claim_C4_read_track_ids_refines_spec :
    (∀ lines : List (List Char), read_track_ids lines = spec_read_track_ids lines) ∧
    read_track_ids
      ["# comment".toList, "".toList, "   ".toList, "  abc  ".toList,
        "spotify:track:xyz".toList, "a:b::".toList] =
      ["abc".toList, "xyz".toList] := by
  constructor
  · intro lines
    unfold read_track_ids spec_read_track_ids
    rw [funext normalize_line_eq_spec]
  · decide

/-! ## Lemmas about the snapshot fetcher -/

theorem mem_addItem (s : Finset String) (it : Item) (x : String) :
    x ∈ addItem s it ↔ x ∈ s ∨ itemId it = some x := by
  obtain ⟨tr⟩ := it
  cases tr with
  | none => simp [addItem, itemId]
  | some t =>
    obtain ⟨oid⟩ := t
    cases oid with
    | none => simp [addItem, itemId]
    | some i =>
      by_cases hi : i = ""
      · simp [addItem, itemId, hi]
      · simp [addItem, itemId, hi, Finset.mem_insert, or_comm, eq_comm]

theorem itemId_ne_some_empty (it : Item) : itemId it ≠ some "" := by
  obtain ⟨tr⟩ := it
  cases tr with
  | none => simp [itemId]
  | some t =>
    obtain ⟨oid⟩ := t
    cases oid with
    | none => simp [itemId]
    | some i =>
      by_cases hi : i = "" <;> simp [itemId, hi]

theorem itemId_eq_some_iff (it : Item) (x : String) :
    itemId it = some x ↔ x ≠ "" ∧ ∃ t, it.track = some t ∧ t.id = some x := by
  obtain ⟨tr⟩ := it
  cases tr with
  | none => simp [itemId]
  | some t =>
    obtain ⟨oid⟩ := t
    cases oid with
    | none => simp [itemId]
    | some i =>
      by_cases hi : i = ""
      · subst hi
        simp only [itemId, if_pos rfl]
        constructor
        · intro h
          exact absurd h (by simp)
        · rintro ⟨hx, t, ht, hid⟩
          injection ht with ht
          subst ht
          have hid' : some "" = some x := hid
          injection hid' with hid'
          exact absurd hid'.symm hx
      · simp only [itemId, if_neg hi]
        constructor
        · intro h
          have hix : i = x := Option.some.inj h
          subst hix
          exact ⟨hi, ⟨some i⟩, rfl, rfl⟩
        · rintro ⟨hx, t, ht, hid⟩
          injection ht with ht
          subst ht
          exact hid

theorem mem_addItemIds (items : List Item) :
    ∀ (s : Finset String) (x : String),
      x ∈ addItemIds s items ↔ x ∈ s ∨ ∃ it ∈ items, itemId it = some x := by
  induction items with
  | nil => simp [addItemIds]
  | cons it rest ih =>
    intro s x
    unfold addItemIds at ih ⊢
    rw [List.foldl_cons, ih, mem_addItem]
    simp [List.mem_cons, exists_eq_or_imp, or_assoc]

theorem mem_foldl_pageAccum (pages : List Page) :
    ∀ (s : Finset String) (x : String),
      x ∈ pages.foldl pageAccum s ↔
        x ∈ s ∨ ∃ p ∈ pages, ∃ it ∈ pageItems p, itemId it = some x := by
  induction pages with
  | nil => simp
  | cons p rest ih =>
    intro s x
    rw [List.foldl_cons, ih, pageAccum, mem_addItemIds]
    simp [List.mem_cons, exists_eq_or_imp, or_assoc]

theorem mem_pagesUnion (pages : List Page) (x : String) :
    x ∈ pagesUnion pages ↔
      ∃ p ∈ pages, ∃ it ∈ pageItems p, it.track.bind Track.id = some x := by
  have key : ∀ (s : Finset String),
      x ∈ pages.foldl
        (fun s p => s ∪ ((pageItems p).filterMap (fun it => it.track.bind Track.id)).toFinset) s ↔
      x ∈ s ∨ ∃ p ∈ pages, ∃ it ∈ pageItems p, it.track.bind Track.id = some x := by
    induction pages with
    | nil => simp
    | cons p rest ih =>
      intro s
      rw [List.foldl_cons, ih]
      simp [Finset.mem_union, List.mem_toFinset, List.mem_filterMap, List.mem_cons,
        exists_eq_or_imp, or_assoc]
  rw [pagesUnion, key]
  simp

theorem foldl_pageAccum_eq_pagesUnion (pages : List Page)
    (hids : ∀ p ∈ pages, ∀ it ∈ pageItems p, ∀ t, it.track = some t → t.id ≠ some "") :
    pages.foldl pageAccum ∅ = pagesUnion pages := by
  ext x
  rw [mem_foldl_pageAccum, mem_pagesUnion]
  simp only [Finset.not_mem_empty, false_or]
  constructor
  · rintro ⟨p, hp, it, hit, hid⟩
    obtain ⟨_, t, ht, htid⟩ := (itemId_eq_some_iff it x).mp hid
    exact ⟨p, hp, it, hit, by rw [ht]; exact htid⟩
  · rintro ⟨p, hp, it, hit, hbind⟩
    obtain ⟨t, ht, htid⟩ := Option.bind_eq_some.mp hbind
    have hxne : x ≠ "" := by
      intro e
      subst e
      exact hids p hp it hit t ht htid
    exact ⟨p, hp, it, hit, (itemId_eq_some_iff it x).mpr ⟨hxne, t, ht, htid⟩⟩

theorem range_map_offset (off n : Nat) :
    (List.range (n + 1)).map (fun k => off + k * 100) =
      off :: (List.range n).map (fun k => off + 100 + k * 100) := by
  rw [List.range_succ_eq_map, List.map_cons, List.map_map]
  refine congrArg₂ List.cons (by simp) ?_
  apply List.map_congr_left
  intro k _
  simp only [Function.comp_apply, Nat.succ_eq_add_one]
  omega

theorem fetchLoop_append_short (front : List Page) (p : Page) (rest : List Page)
    (hfull : ∀ q ∈ front, (pageItems q).length = 100)
    (hshort : (pageItems p).length < 100) :
    ∀ (off : Nat) (acc : Finset String),
      fetchLoop (front ++ p :: rest) off acc =
        (addItemIds (front.foldl pageAccum acc) (pageItems p),
          (List.range (front.length + 1)).map (fun k => off + k * 100)) := by
  induction front with
  | nil =>
    intro off acc
    simp only [List.nil_append, fetchLoop, List.foldl_nil, List.length_nil]
    rw [if_pos hshort]
    have : (List.range 1).map (fun k => off + k * 100) = [off] := by
      rw [show (1 : Nat) = 0 + 1 from rfl, range_map_offset]
      simp
    rw [this]
  | cons q front' ih =>
    intro off acc
    have hq := hfull q (List.mem_cons_self q front')
    simp only [List.cons_append, fetchLoop, List.append_eq]
    rw [if_neg (by omega)]
    rw [List.length_cons, range_map_offset off (front'.length + 1)]
    rw [ih (fun a ha => hfull a (List.mem_cons_of_mem _ ha)) (off + 100)
      (addItemIds acc (pageItems q))]
    rw [List.foldl_cons,
      show pageAccum acc q = addItemIds acc (pageItems q) from rfl]

theorem fetchLoop_first_short (i : Nat) :
    ∀ (pages : List Page) (off : Nat) (acc : Finset String),
      i < pages.length →
      (∀ j, j < i → 100 ≤ (pageItems (pages.getD j default)).length) →
      (pageItems (pages.getD i default)).length < 100 →
      (fetchLoop pages off acc).2 = (List.range (i + 1)).map (fun k => off + k * 100) := by
  induction i with
  | zero =>
    intro pages off acc hi _ hshort
    cases pages with
    | nil => simp at hi
    | cons p rest =>
      rw [List.getD_cons_zero] at hshort
      simp only [fetchLoop]
      rw [if_pos hshort]
      rw [show (0 : Nat) + 1 = 0 + 1 from rfl, range_map_offset]
      simp
  | succ i ih =>
    intro pages off acc hi hfull hshort
    cases pages with
    | nil => simp at hi
    | cons p rest =>
      have hp : 100 ≤ (pageItems p).length := by
        have h0 := hfull 0 (Nat.succ_pos i)
        rwa [List.getD_cons_zero] at h0
      simp only [fetchLoop]
      rw [if_neg (by omega)]
      show off :: (fetchLoop rest (off + 100) (addItemIds acc (pageItems p))).2 = _
      rw [range_map_offset off (i + 1)]
      congr 1
      exact ih rest (off + 100) (addItemIds acc (pageItems p))
        (by simpa using hi)
        (fun j hj => by
          have := hfull (j + 1) (by omega)
          rwa [List.getD_cons_succ] at this)
        (by
          have := hshort
          rwa [List.getD_cons_succ] at this)

theorem getLastD_eq_getLast {α : Type} (l : List α) (d : α) (h : l ≠ []) :
    l.getLastD d = l.getLast h := by
  cases l with
  | nil => exact absurd rfl h
  | cons a l' => rw [List.getLastD_cons, List.getLast_eq_getLastD]

theorem not_mem_empty_addItemIds (acc : Finset String) (items : List Item)
    (h : "" ∉ acc) : "" ∉ addItemIds acc items := by
  rw [mem_addItemIds]
  rintro (h' | ⟨it, _, hid⟩)
  · exact h h'
  · exact itemId_ne_some_empty it hid

theorem fetchLoop_no_empty :
    ∀ (pages : List Page) (off : Nat) (acc : Finset String),
      "" ∉ acc → "" ∉ (fetchLoop pages off acc).1 := by
  intro pages
  induction pages with
  | nil =>
    intro off acc h
    simpa [fetchLoop] using h
  | cons p rest ih =>
    intro off acc h
    simp only [fetchLoop]
    by_cases hlen : (pageItems p).length < 100
    · rw [if_pos hlen]
      exact not_mem_empty_addItemIds acc _ h
    · rw [if_neg hlen]
      exact ih (off + 100) _ (not_mem_empty_addItemIds acc _ h)

/-- C3: for a playlist served as `m` full pages of 100 entries followed by a
short final page of one entry (N+1 entries in total with N = 100*m), the
fetch issues exactly `ceil((N+1)/100) = m+1` page requests, and the returned
set is the union of the identifiers across all pages, excluding entries
whose track reference is absent or whose identifier is null.  The identifier
union is stated against `pagesUnion`, which excludes exactly the absent and
null entries; the hypothesis `hids` states that the playlist's tracks carry
genuine (non-empty) identifier tokens. -/
theorem claim_C3_pagination_and_union (m : Nat) (pages : List Page)
    (hlen : pages.length = m + 1)
    (hfull : ∀ p ∈ pages.dropLast, (pageItems p).length = 100)
    (hshort : (pageItems (pages.getLastD default)).length = 1)
    (hids : ∀ p ∈ pages, ∀ it ∈ pageItems p, ∀ t, it.track = some t → t.id ≠ some "") :
    (get_existing_track_ids pages).2.length = ((100 * m + 1) + 99) / 100 ∧
    (get_existing_track_ids pages).1 = pagesUnion pages := by
  have hne : pages ≠ [] := by
    intro e
    rw [e] at hlen
    simp at hlen
  have hlast : (pageItems (pages.getLast hne)).length = 1 := by
    rwa [getLastD_eq_getLast pages default hne] at hshort
  have hdec := List.dropLast_append_getLast hne
  have key := fetchLoop_append_short pages.dropLast (pages.getLast hne) [] hfull
    (by omega) 0 ∅
  rw [hdec] at key
  constructor
  · rw [get_existing_track_ids, key]
    dsimp only
    rw [List.length_map, List.length_range, List.length_dropLast, hlen]
    omega
  · rw [get_existing_track_ids, key]
    dsimp only
    have hfold : addItemIds (pages.dropLast.foldl pageAccum ∅)
        (pageItems (pages.getLast hne)) = pages.foldl pageAccum ∅ := by
      conv_rhs => rw [← hdec]
      rw [List.foldl_append]
      rfl
    rw [hfold]
    exact foldl_pageAccum_eq_pagesUnion pages hids

theorem claim_C3_witness :
    ([pageA, ⟨some [trackItem "b"], none⟩] : List Page).length = 1 + 1 ∧
    ((get_existing_track_ids [pageA, ⟨some [trackItem "b"], none⟩]).2.length =
        ((100 * 1 + 1) + 99) / 100 ∧
      (get_existing_track_ids [pageA, ⟨some [trackItem "b"], none⟩]).1 =
        pagesUnion [pageA, ⟨some [trackItem "b"], none⟩]) :=
  ⟨by decide,
    claim_C3_pagination_and_union 1 [pageA, ⟨some [trackItem "b"], none⟩]
      (by decide) (by decide) (by decide) (by decide)⟩

/-- C6: when some page holds fewer than 100 items and every earlier page
holds at least 100, the fetch terminates right after that first short page
(no matter what the later pages or any `total` field say), and the k-th
request carries offset (k-1)*100: the requested offsets are exactly
0, 100, ..., i*100. -/
theorem claim_C6_stops_at_first_short_page (pages : List Page) (i : Nat)
    (hi : i < pages.length)
    (hbefore : ∀ j ∈ List.range i, 100 ≤ (pageItems (pages.getD j default)).length)
    (hshort : (pageItems (pages.getD i default)).length < 100) :
    (get_existing_track_ids pages).2 = (List.range (i + 1)).map (fun k => k * 100) := by
  rw [get_existing_track_ids,
    fetchLoop_first_short i pages 0 ∅ hi
      (fun j hj => hbefore j (List.mem_range.mpr hj)) hshort]
  apply List.map_congr_left
  intro k _
  omega

theorem claim_C6_witness :
    ((1 : Nat) <
        ([pageA, ⟨some [trackItem "b"], some 7⟩, ⟨some [trackItem "c"], none⟩] :
          List Page).length) ∧
    (get_existing_track_ids
        [pageA, ⟨some [trackItem "b"], some 7⟩, ⟨some [trackItem "c"], none⟩]).2 =
      (List.range (1 + 1)).map (fun k => k * 100) :=
  ⟨by decide,
    claim_C6_stops_at_first_short_page
      [pageA, ⟨some [trackItem "b"], some 7⟩, ⟨some [trackItem "c"], none⟩] 1
      (by decide) (by decide) (by decide)⟩

/-- C9: a page response with no `items` field at all is treated as an empty
page: it contributes no identifiers, it terminates the pagination loop
(later pages are never requested), and the function returns the set
accumulated from the earlier pages. -/
theorem claim_C9_missing_items_field (front rest : List Page) (tot : Option Nat)
    (hfull : ∀ p ∈ front, (pageItems p).length = 100) :
    get_existing_track_ids (front ++ (⟨none, tot⟩ : Page) :: rest) =
      (front.foldl pageAccum ∅, (List.range (front.length + 1)).map (fun k => k * 100)) := by
  rw [get_existing_track_ids,
    fetchLoop_append_short front ⟨none, tot⟩ rest hfull (by simp [pageItems]) 0 ∅]
  refine congrArg₂ Prod.mk rfl ?_
  apply List.map_congr_left
  intro k _
  omega

theorem claim_C9_witness :
    (∀ p ∈ ([pageA] : List Page), (pageItems p).length = 100) ∧
    get_existing_track_ids
        ([pageA] ++ (⟨none, some 999⟩ : Page) :: [⟨some [trackItem "c"], none⟩]) =
      (([pageA] : List Page).foldl pageAccum ∅,
        (List.range (([pageA] : List Page).length + 1)).map (fun k => k * 100)) :=
  ⟨by decide,
    claim_C9_missing_items_field [pageA] [⟨some [trackItem "c"], none⟩] (some 999)
      (by decide)⟩

/-- C10: the fetched set never contains the empty string; an entry whose
track identifier is the empty string (not only null or absent) is excluded,
because the code requires the identifier to be truthy.  The concrete page
holds an empty-string entry next to a normal one and only the latter makes
it into the set. -/
theorem claim_C10_no_empty_identifier :
    (∀ (pages : List Page) (x : String),
      x ∈ (get_existing_track_ids pages).1 → x ≠ "") ∧
    (get_existing_track_ids [⟨some [trackItem "", trackItem "a"], none⟩]).1 = {"a"} := by
  constructor
  · intro pages x hx e
    subst e
    exact fetchLoop_no_empty pages 0 ∅ (by simp) hx
  · decide

theorem claim_C10_witness : ("a" : String) ≠ "" :=
  claim_C10_no_empty_identifier.1 [⟨some [trackItem "a"], none⟩] "a" (by decide)

/-! ## Lemmas about the batched appender -/

theorem mkBatches_nil : mkBatches [] = [] := rfl

theorem mkBatches_cons_unfold (l : List String) (h : l ≠ []) :
    mkBatches l = l.take 100 :: mkBatches (l.drop 100) := by
  unfold mkBatches
  have hlen : 0 < l.length := List.length_pos.mpr h
  have harith : (l.length + 99) / 100 = ((l.drop 100).length + 99) / 100 + 1 := by
    rw [List.length_drop]
    omega
  rw [harith, List.range_succ_eq_map, List.map_cons, List.map_map]
  refine congrArg₂ List.cons (by simp) ?_
  apply List.map_congr_left
  intro k _
  simp only [Function.comp_apply, Nat.succ_eq_add_one, List.drop_drop]
  have hidx : (k + 1) * 100 = 100 + k * 100 := by ring
  rw [hidx]

theorem mkBatches_ne_nil (l : List String) (h : l ≠ []) : mkBatches l ≠ [] := by
  rw [mkBatches_cons_unfold l h]
  simp

theorem mkBatches_spec : ∀ (n : Nat) (l : List String), l.length ≤ n →
    (mkBatches l).flatten = l ∧ ∀ b ∈ mkBatches l, b ≠ [] ∧ b.length ≤ 100 := by
  intro n
  induction n with
  | zero =>
    intro l hl
    have hnil : l = [] := List.eq_nil_of_length_eq_zero (Nat.le_zero.mp hl)
    subst hnil
    simp [mkBatches_nil]
  | succ n ih =>
    intro l hl
    by_cases h : l = []
    · subst h
      simp [mkBatches_nil]
    · rw [mkBatches_cons_unfold l h]
      have hpos : 0 < l.length := List.length_pos.mpr h
      have hdl : (l.drop 100).length ≤ n := by
        rw [List.length_drop]
        omega
      obtain ⟨ihj, ihb⟩ := ih (l.drop 100) hdl
      refine ⟨?_, ?_⟩
      · rw [List.flatten_cons, ihj, List.take_append_drop]
      · intro b hb
        rcases List.mem_cons.mp hb with rfl | hb'
        · refine ⟨?_, List.length_take_le 100 l⟩
          simp [List.take_eq_nil_iff, h]
        · exact ihb b hb'

theorem flatten_mkBatches (l : List String) : (mkBatches l).flatten = l :=
  (mkBatches_spec l.length l le_rfl).1

theorem mkBatches_batch_bounds (l : List String) :
    ∀ b ∈ mkBatches l, b ≠ [] ∧ b.length ≤ 100 :=
  (mkBatches_spec l.length l le_rfl).2

theorem mkBatches_length_150 (l : List String) (h : l.length = 150) :
    (mkBatches l).map List.length = [100, 50] := by
  have h1 : l ≠ [] := by
    intro e
    rw [e] at h
    simp at h
  have h2 : l.drop 100 ≠ [] := by
    intro e
    have he := congrArg List.length e
    rw [List.length_drop, h] at he
    simp at he
  have h3 : (l.drop 100).drop 100 = [] :=
    List.drop_eq_nil_of_le (by rw [List.length_drop, h]; omega)
  rw [mkBatches_cons_unfold l h1, mkBatches_cons_unfold _ h2, h3, mkBatches_nil]
  rw [List.map_cons, List.map_cons, List.map_nil, List.length_take, List.length_take,
    List.length_drop, h]
  norm_num

theorem appendedBatches_append (t1 t2 : List Event) :
    appendedBatches (t1 ++ t2) = appendedBatches t1 ++ appendedBatches t2 :=
  List.filterMap_append t1 t2 _

theorem appendedBatches_map_pageRequest (offs : List Nat) :
    appendedBatches (offs.map Event.pageRequest) = [] := by
  induction offs with
  | nil => rfl
  | cons o os ih => exact ih

theorem appendedBatches_map_appendCall (bs : List (List String)) :
    appendedBatches (bs.map Event.appendCall) = bs := by
  induction bs with
  | nil => rfl
  | cons b t ih =>
    show b :: appendedBatches (t.map Event.appendCall) = b :: t
    rw [ih]

theorem appendedBatches_trace (pages : List Page) (ids : List String) :
    appendedBatches (add_tracks_to_playlist pages ids) =
      mkBatches (to_add (get_existing_track_ids pages).1 ids) := by
  unfold add_tracks_to_playlist
  by_cases h : to_add (get_existing_track_ids pages).1 ids = []
  · rw [if_pos h, appendedBatches_append, appendedBatches_map_pageRequest, h,
      mkBatches_nil]
    rfl
  · rw [if_neg h, appendedBatches_append, appendedBatches_map_pageRequest,
      appendedBatches_map_appendCall, List.nil_append]

theorem dropWhile_append_all {α : Type} (p : α → Bool) (X Y : List α)
    (h : ∀ x ∈ X, p x = true) : List.dropWhile p (X ++ Y) = List.dropWhile p Y := by
  induction X with
  | nil => simp
  | cons x xs ih =>
    have hx := h x (List.mem_cons_self x xs)
    simp [List.dropWhile_cons, hx, ih (fun a ha => h a (List.mem_cons_of_mem _ ha))]

/-- C1: the residue sent to the append step is exactly the subsequence of
the input consisting of every element not in the existing-set, preserving
relative order (it is a sublist) and duplicate multiplicity (counts of
non-existing identifiers are preserved); concretely, with existing-set
containing only "id1", the input of the included unit test yields exactly
one batch call with payload ["id2", "id2", "id3", "id4", "id5"]. -/
theorem claim_C1_residue_filters_existing :
    (∀ (pages : List Page) (ids : List String),
      ((appendedBatches (add_tracks_to_playlist pages ids)).flatten).Sublist ids ∧
      (∀ x, x ∈ (appendedBatches (add_tracks_to_playlist pages ids)).flatten ↔
        x ∈ ids ∧ x ∉ (get_existing_track_ids pages).1) ∧
      (∀ x, ((appendedBatches (add_tracks_to_playlist pages ids)).flatten).count x =
        if x ∈ (get_existing_track_ids pages).1 then 0 else ids.count x)) ∧
    appendedBatches
        (add_tracks_to_playlist [⟨some [trackItem "id1"], none⟩]
          ["id1", "id2", "id2", "id3", "id4", "id5"]) =
      [["id2", "id2", "id3", "id4", "id5"]] := by
  constructor
  · intro pages ids
    rw [appendedBatches_trace, flatten_mkBatches]
    unfold to_add
    refine ⟨List.filter_sublist ids, ?_, ?_⟩
    · intro x
      rw [List.mem_filter]
      simp
    · intro x
      by_cases hx : x ∈ (get_existing_track_ids pages).1
      · rw [if_pos hx, List.count_eq_zero, List.mem_filter]
        simp [hx]
      · rw [if_neg hx]
        exact List.count_filter (by simpa using hx)
  · decide

/-- C2: for a non-empty residue, the appender issues one append call per
batch, the batches are consecutive non-empty slices of at most 100
identifiers whose concatenation is the residue, and a residue of exactly
150 identifiers yields two calls of sizes 100 and 50 in order. -/
theorem claim_C2_batch_partition (pages : List Page) (ids : List String)
    (h : to_add (get_existing_track_ids pages).1 ids ≠ []) :
    (appendedBatches (add_tracks_to_playlist pages ids)).flatten =
      to_add (get_existing_track_ids pages).1 ids ∧
    (∀ b ∈ appendedBatches (add_tracks_to_playlist pages ids),
      b ≠ [] ∧ b.length ≤ 100) ∧
    appendedBatches (add_tracks_to_playlist pages ids) ≠ [] ∧
    ((to_add (get_existing_track_ids pages).1 ids).length = 150 →
      (appendedBatches (add_tracks_to_playlist pages ids)).map List.length =
        [100, 50]) := by
  rw [appendedBatches_trace]
  exact ⟨flatten_mkBatches _, mkBatches_batch_bounds _, mkBatches_ne_nil _ h,
    fun h150 => mkBatches_length_150 _ h150⟩

theorem claim_C2_witness :
    to_add (get_existing_track_ids []).1 (List.replicate 150 "x") ≠ [] ∧
    ((appendedBatches (add_tracks_to_playlist [] (List.replicate 150 "x"))).flatten =
        to_add (get_existing_track_ids []).1 (List.replicate 150 "x") ∧
      (∀ b ∈ appendedBatches (add_tracks_to_playlist [] (List.replicate 150 "x")),
        b ≠ [] ∧ b.length ≤ 100) ∧
      appendedBatches (add_tracks_to_playlist [] (List.replicate 150 "x")) ≠ [] ∧
      ((to_add (get_existing_track_ids []).1 (List.replicate 150 "x")).length = 150 →
        (appendedBatches (add_tracks_to_playlist [] (List.replicate 150 "x"))).map
            List.length = [100, 50])) :=
  ⟨by decide, claim_C2_batch_partition [] (List.replicate 150 "x") (by decide)⟩

/-- C5: the snapshot is fetched exactly once, before any append call: the
trace starts with exactly the page requests of the single fetch, no page
request occurs after them, and every batch is filtered only against the
pre-run snapshot (the concatenation of all appended batches equals the
input filtered against that one snapshot).  Concretely, 101 copies of an
identifier absent from the playlist are appended as a batch of 100 and then
a batch of 1: the first batch's additions are not reflected into the dedup
check of the second. -/
theorem claim_C5_single_snapshot :
    (∀ (pages : List Page) (ids : List String),
      (add_tracks_to_playlist pages ids).takeWhile isPageRequest =
        (get_existing_track_ids pages).2.map Event.pageRequest ∧
      ((add_tracks_to_playlist pages ids).dropWhile isPageRequest).all
        (fun e => !isPageRequest e) = true ∧
      (appendedBatches (add_tracks_to_playlist pages ids)).flatten =
        to_add (get_existing_track_ids pages).1 ids) ∧
    appendedBatches (add_tracks_to_playlist [] (List.replicate 101 "x")) =
      [List.replicate 100 "x", ["x"]] := by
  constructor
  · intro pages ids
    have hall : ∀ e ∈ (get_existing_track_ids pages).2.map Event.pageRequest,
        isPageRequest e = true := by
      intro e he
      obtain ⟨o, _, rfl⟩ := List.mem_map.mp he
      rfl
    refine ⟨?_, ?_, ?_⟩
    · unfold add_tracks_to_playlist
      by_cases h : to_add (get_existing_track_ids pages).1 ids = []
      · rw [if_pos h, takeWhile_append_all _ _ _ hall,
          show List.takeWhile isPageRequest [Event.noopReport] = [] from rfl,
          List.append_nil]
      · rw [if_neg h, takeWhile_append_all _ _ _ hall]
        cases hmb : mkBatches (to_add (get_existing_track_ids pages).1 ids) with
        | nil => exact absurd hmb (mkBatches_ne_nil _ h)
        | cons b bs =>
          rw [show List.takeWhile isPageRequest ((b :: bs).map Event.appendCall) = []
              from rfl,
            List.append_nil]
    · unfold add_tracks_to_playlist
      by_cases h : to_add (get_existing_track_ids pages).1 ids = []
      · rw [if_pos h, dropWhile_append_all _ _ _ hall]
        rfl
      · rw [if_neg h, dropWhile_append_all _ _ _ hall]
        cases hmb : mkBatches (to_add (get_existing_track_ids pages).1 ids) with
        | nil => exact absurd hmb (mkBatches_ne_nil _ h)
        | cons b bs =>
          rw [show List.dropWhile isPageRequest ((b :: bs).map Event.appendCall) =
              (b :: bs).map Event.appendCall from rfl,
            List.all_eq_true]
          intro e he
          obtain ⟨b', _, rfl⟩ := List.mem_map.mp he
          rfl
    · rw [appendedBatches_trace, flatten_mkBatches]
  · decide

/-- C7: when every input identifier is already in the snapshot, the run
issues no append call: the trace is exactly the fetch's page requests
followed by the no-op report, and no batch is appended. -/
theorem claim_C7_noop_on_empty_residue (pages : List Page) (ids : List String)
    (h : ∀ x ∈ ids, x ∈ (get_existing_track_ids pages).1) :
    add_tracks_to_playlist pages ids =
      (get_existing_track_ids pages).2.map Event.pageRequest ++ [Event.noopReport] ∧
    appendedBatches (add_tracks_to_playlist pages ids) = [] := by
  have hres : to_add (get_existing_track_ids pages).1 ids = [] := by
    unfold to_add
    rw [List.filter_eq_nil_iff]
    intro a ha
    simp [h a ha]
  constructor
  · unfold add_tracks_to_playlist
    rw [if_pos hres]
  · rw [appendedBatches_trace, hres, mkBatches_nil]

theorem claim_C7_witness :
    (∀ x ∈ (["id1", "id1"] : List String),
      x ∈ (get_existing_track_ids [⟨some [trackItem "id1"], none⟩]).1) ∧
    (add_tracks_to_playlist [⟨some [trackItem "id1"], none⟩] ["id1", "id1"] =
        (get_existing_track_ids [⟨some [trackItem "id1"], none⟩]).2.map
          Event.pageRequest ++ [Event.noopReport] ∧
      appendedBatches
          (add_tracks_to_playlist [⟨some [trackItem "id1"], none⟩]
            ["id1", "id1"]) = []) :=
  ⟨by decide,
    claim_C7_noop_on_empty_residue [⟨some [trackItem "id1"], none⟩] ["id1", "id1"]
      (by decide)⟩

theorem runBatches_fail (ok : Nat → Bool) :
    ∀ (i : Nat) (bs : List (List String)) (k : Nat),
      i < bs.length →
      (∀ j, j < i → ok (k + j) = true) →
      ok (k + i) = false →
      runBatches ok bs k = (bs.take (i + 1), false) := by
  intro i
  induction i with
  | zero =>
    intro bs k hlen _ hfail
    cases bs with
    | nil => simp at hlen
    | cons b t =>
      have hk : ok k = false := by simpa using hfail
      simp [runBatches, hk]
  | succ i ih =>
    intro bs k hlen hok hfail
    cases bs with
    | nil => simp at hlen
    | cons b t =>
      have h0 : ok k = true := by simpa using hok 0 (Nat.succ_pos i)
      have hfail' : ok (k + 1 + i) = false := by
        have hf := hfail
        rwa [show k + (i + 1) = k + 1 + i from by omega] at hf
      have hok' : ∀ j, j < i → ok (k + 1 + j) = true := by
        intro j hj
        have hj' := hok (j + 1) (by omega)
        rwa [show k + (j + 1) = k + 1 + j from by omega] at hj'
      have hlen' : i < t.length := by simpa using hlen
      simp only [runBatches, h0, if_true]
      rw [ih t (k + 1) hlen' hok' hfail']
      simp

/-- C8: if the append call for batch k fails while all earlier calls
succeeded, the run issues the calls for batches 0..k only (the failing call
included), the failure propagates to the caller (the run does not complete
cleanly), and the batches issued before the failure remain issued: the call
list is exactly the prefix of the batch partition, with no rollback. -/
theorem claim_C8_failure_aborts_run (ok : Nat → Bool) (pages : List Page)
    (ids : List String) (k : Nat)
    (hk : k < (mkBatches (to_add (get_existing_track_ids pages).1 ids)).length)
    (hbefore : ∀ j ∈ List.range k, ok j = true)
    (hfail : ok k = false) :
    add_tracks_run ok pages ids =
      ((mkBatches (to_add (get_existing_track_ids pages).1 ids)).take (k + 1),
        false) := by
  have hne : to_add (get_existing_track_ids pages).1 ids ≠ [] := by
    intro e
    rw [e, mkBatches_nil] at hk
    simp at hk
  unfold add_tracks_run
  rw [if_neg hne]
  exact runBatches_fail ok k _ 0 hk
    (fun j hj => by simpa using hbefore j (List.mem_range.mpr hj))
    (by simpa using hfail)

set_option maxRecDepth 8000 in
theorem claim_C8_witness :
    ((1 : Nat) <
        (mkBatches (to_add (get_existing_track_ids []).1
          (List.replicate 150 "x"))).length) ∧
    add_tracks_run (fun j => decide (j = 0)) [] (List.replicate 150 "x") =
      ((mkBatches (to_add (get_existing_track_ids []).1
          (List.replicate 150 "x"))).take (1 + 1), false) :=
  ⟨by decide,
    claim_C8_failure_aborts_run (fun j => decide (j = 0)) [] (List.replicate 150 "x") 1
      (by decide) (by decide) (by decide)⟩

end FillPlaylist
